import Mathlib

/-!
Verification of the LOOK elevator dispatch engine of this repository.

The definitions below are shallow embeddings of the Python source:

* `src/src/LookBasedElevatorController.py` (class `LookElevatorController`)
  — the primary controller: ledger maps, assignment cost, greedy
  assignment, and the `_find_next_target` LOOK scan.
* `src/controllers/look_controller.py` (class `LookController`)
  — a draft variant: its `_calculate_assignment_cost` and the full-car
  dispatch block of `on_event_execute_end`.

Python integers become `Int` (floors) or `Nat` (counts of things),
Python floats used for costs become `ℚ` (the weights are 1.0, 0.5, 2.0,
10, 100 — all exact rationals; no rounding occurs in the source
expressions), Python `dict[int,int]` becomes an insertion-ordered
association list, Python `set[int]` becomes a `List Int` holding the
set's elements in its iteration order (CPython set iteration order is
hash-table order, which is NOT guaranteed ascending; where a claim is
insensitive to the order the theorems quantify over every order).
`None`-returning functions become `Option`-valued.
-/

namespace LookSpec

/-- Direction of an elevator or of a request, `Direction` in
`elevator_saga.core.models` as used by the controllers. -/
inductive Direction where
  | up
  | down
  | stopped
deriving DecidableEq, Repr

/-- The dispatch weights set in `LookElevatorController.__init__`:
`alpha`, `beta`, `gamma`, `K`, `M`. They are configuration, read but
never written after construction. -/
structure Params where
  alpha : ℚ
  beta : ℚ
  gamma : ℚ
  K : ℚ
  M : ℚ
deriving DecidableEq, Repr

/-- The concrete values assigned in `__init__`:
`alpha = 1.0`, `beta = 0.5`, `gamma = 2.0`, `K = 10`, `M = 100`. -/
def defaultParams : Params :=
  ⟨1, 1/2, 2, 10, 100⟩

/-- Python `min(l)` on a non-empty list of ints: the least value.
`none` models the `ValueError` Python raises on an empty sequence. -/
def listMin : List Int → Option Int
  | [] => none
  | x :: xs => some (xs.foldl min x)

/-- Python `max(l)` on a non-empty list of ints: the greatest value.
`none` models the `ValueError` on an empty sequence. -/
def listMax : List Int → Option Int
  | [] => none
  | x :: xs => some (xs.foldl max x)

/-- Python `min(iterable, key=lambda f: abs(f - current))`: scans the
iterable in order keeping the current winner, replacing it only when a
strictly smaller key appears — so among ties the FIRST element in
iteration order wins. -/
def minByDist (current : Int) : List Int → Option Int
  | [] => none
  | x :: xs => some (xs.foldl (fun b f => if |f - current| < |b - current| then f else b) x)

/-- `LookElevatorController._find_next_target(current_floor, direction,
requested_floors)` (src/src/LookBasedElevatorController.py, lines
281–318), the LOOK scan: going UP, serve the nearest requested floor
above, else reverse to the nearest below, else the current floor if
requested; DOWN is symmetric; STOPPED picks the floor nearest by
absolute distance (Python `min` with a key over the set's iteration
order). `requested` is the Python set in iteration order. -/
def findNextTarget (current : Int) (direction : Direction) (requested : List Int) :
    Option Int :=
  if requested.isEmpty then none
  else
    match direction with
    | .up =>
      let above := requested.filter (fun f => current < f)
      match listMin above with
      | some m => some m
      | none =>
        let below := requested.filter (fun f => f < current)
        match listMax below with
        | some m => some m
        | none => if current ∈ requested then some current else none
    | .down =>
      let below := requested.filter (fun f => f < current)
      match listMax below with
      | some m => some m
      | none =>
        let above := requested.filter (fun f => current < f)
        match listMin above with
        | some m => some m
        | none => if current ∈ requested then some current else none
    | .stopped => minByDist current requested

/-- The target-commit step of `on_event_execute_end` (lines 101–105) and
`on_elevator_idle` (lines 135–139): when `_find_next_target` yields a
target, store it and recompute the direction as
`Direction.UP if next_target > current_floor else Direction.DOWN`. -/
def commitTarget (current : Int) (direction : Direction) (requested : List Int) :
    Option (Int × Direction) :=
  match findNextTarget current direction requested with
  | none => none
  | some t => some (t, if current < t then Direction.up else Direction.down)

/-- A Python `dict[int, int]` mapping a floor to a pending passenger
count, in insertion order: `elevator_call_floors[id]` and
`elevator_destination_floors[id]` of `LookElevatorController`. Keys are
unique (a dict); `FMwf` below records that together with positivity. -/
abbrev FloorMap := List (Int × Int)

/-- Python `floor in map` / `map[floor]`: the value bound to the first
(hence only) occurrence of the key. -/
def lookupFM : FloorMap → Int → Option Int
  | [], _ => none
  | (k, v) :: rest, f => if k = f then some v else lookupFM rest f

/-- Keys of the map, in insertion order (`map.keys()`). -/
def keysFM (m : FloorMap) : List Int := m.map Prod.fst

/-- The add-one-pending pattern used on `calls` in
`_assign_new_passengers` (lines 226–228) and on `destinations` in
`on_passenger_board` (lines 163–165):
`if f not in m: m[f] = 0` then `m[f] += 1`. A missing key is appended
at the end (Python dicts preserve insertion order). -/
def incCount : FloorMap → Int → FloorMap
  | [], f => [(f, 1)]
  | (k, v) :: rest, f =>
    if k = f then (k, v + 1) :: rest else (k, v) :: incCount rest f

/-- The guarded decrement-and-drop pattern used on `calls` in
`on_passenger_board` (lines 157–160) and on `destinations` in
`on_passenger_alight` (lines 175–178):
`if f in m: m[f] -= 1; if m[f] <= 0: del m[f]`. A floor not present is
left untouched (no exception is raised). -/
def decOrRemove : FloorMap → Int → FloorMap
  | [], _ => []
  | (k, v) :: rest, f =>
    if k = f then (if v - 1 ≤ 0 then rest else (k, v - 1) :: rest)
    else (k, v) :: decOrRemove rest f

/-- Well-formedness of a ledger map: every stored count is strictly
positive (a count that reaches zero is deleted, never kept), and keys
are unique (it models a Python dict). -/
def FMwf (m : FloorMap) : Prop :=
  (∀ p ∈ m, 0 < p.2) ∧ (keysFM m).Nodup

instance (m : FloorMap) : Decidable (FMwf m) := by
  unfold FMwf; infer_instance

/-- `_get_requested_floors` (lines 271–279): the union of the call
floors and the destination floors of one elevator. The source returns
the Python set `set(calls) | set(dests)`; this list has the same
members (concatenation), which is all any claim about it uses. -/
def requestedFloors (calls dests : FloorMap) : List Int :=
  keysFM calls ++ keysFM dests

/-- Snapshot of one elevator as the cost and assignment code reads it:
`elevator.id`, `elevator.current_floor`, `len(elevator.passengers)`
(onboard count), and the controller's stored direction
`self.elevator_directions[elevator.id]`, bundled here instead of the
side dict keyed by id. -/
structure Elevator where
  id : Nat
  floor : Int
  passengers : Nat
  dir : Direction
deriving DecidableEq, Repr

/-- The direction-penalty computation inside
`LookElevatorController._calculate_assignment_cost` (lines 243–267):
0 when the elevator is stopped; for an elevator moving with the
request, 0 when the origin is not yet passed (`origin >= floor` going
up, `origin <= floor` going down) and `K` when it is; `M` when the
elevator moves against the request. -/
def directionPenalty (P : Params) (e : Elevator) (origin : Int) (reqdir : Direction) : ℚ :=
  if e.dir = .stopped then 0
  else if e.dir = reqdir then
    if reqdir = .up then (if origin ≥ e.floor then 0 else P.K)
    else (if origin ≤ e.floor then 0 else P.K)
  else P.M

/-- `LookElevatorController._calculate_assignment_cost` (lines
233–269): `alpha * abs(floor - origin) + beta * len(passengers) +
gamma * direction_penalty`. -/
def calcCost (P : Params) (e : Elevator) (origin : Int) (reqdir : Direction) : ℚ :=
  P.alpha * ((e.floor - origin).natAbs : ℚ) + P.beta * (e.passengers : ℚ)
    + P.gamma * directionPenalty P e origin reqdir

/-- Modelled from the spec (§4.3), the `directionPenalty` bullets: 0
for a stopped elevator; 0 for same direction with the origin ahead of
or at the elevator (`origin ≥ floor` for UP, `origin ≤ floor` for
DOWN); `K` for same direction but behind; `M` for the opposite
direction. Written from the spec's words to compare against the two
source implementations. -/
def specDirectionPenalty (P : Params) (e : Elevator) (origin : Int)
    (reqdir : Direction) : ℚ :=
  if e.dir = .stopped then 0
  else if e.dir = reqdir ∧
      ((reqdir = .up ∧ origin ≥ e.floor) ∨ (reqdir = .down ∧ origin ≤ e.floor)) then 0
  else if e.dir = reqdir then P.K
  else P.M

/-- Modelled from the spec (§4.3): the specified cost
`α·|e.floor − req.origin| + β·e.passengerCount + γ·directionPenalty`. -/
def specCost (P : Params) (e : Elevator) (origin : Int) (reqdir : Direction) : ℚ :=
  P.alpha * ((e.floor - origin).natAbs : ℚ) + P.beta * (e.passengers : ℚ)
    + P.gamma * specDirectionPenalty P e origin reqdir

/-- `LookController._calculate_assignment_cost`
(src/controllers/look_controller.py, lines 320–344): only
`alpha * abs(floor - origin) + beta * (len(upward) + len(downward))`;
the entire direction-penalty computation is commented out, and the
queue term counts the controller's per-elevator assignment queues, not
the onboard passengers. The `reqdir` argument is received and ignored,
as in the source. -/
def lookCalcCost (alpha beta : ℚ) (efloor : Int) (upLen downLen : Nat)
    (origin : Int) (reqdir : Direction) : ℚ :=
  alpha * ((efloor - origin).natAbs : ℚ) + beta * ((upLen + downLen : Nat) : ℚ)

/-- One buffered entry of `self.new_passengers`, appended by
`on_passenger_call` (lines 113–120): the passenger, the origin floor
and the requested direction. -/
structure PassengerInfo where
  pid : Nat
  origin : Int
  dir : Direction
deriving DecidableEq, Repr

/-- Line 60 of `on_event_execute_start`: `self.new_passengers = []` —
the buffer of the previous cycle is discarded unconditionally at the
start of every cycle. -/
def resetNewPassengers (_buf : List PassengerInfo) : List PassengerInfo := []

/-- The best-elevator scan of `_assign_new_passengers` (lines
215–222): `best = None; min_cost = inf; for e in elevators: if
cost(e) < min_cost: min_cost, best = cost(e), e`. The accumulator
carries the elevator together with its cached cost, `none` standing
for the initial `None`/infinity pair (any finite cost beats it). -/
def selectBest (P : Params) (elevators : List Elevator) (origin : Int)
    (reqdir : Direction) : Option (Elevator × ℚ) :=
  elevators.foldl
    (fun acc e =>
      let c := calcCost P e origin reqdir
      match acc with
      | none => some (e, c)
      | some (_, mc) => if c < mc then some (e, c) else acc)
    none

/-- The per-elevator ledgers, `self.elevator_call_floors`: elevator id
→ floor map, populated for every elevator id at `on_init`. -/
abbrev Ledger := List (Nat × FloorMap)

/-- `self.elevator_call_floors[id]` updated with one more pending call
at `origin` (the `incCount` pattern of lines 226–228), the other
elevators' maps untouched. -/
def addCallLedger : Ledger → Nat → Int → Ledger
  | [], _, _ => []
  | (k, m) :: rest, i, f =>
    if k = i then (k, incCount m f) :: rest else (k, m) :: addCallLedger rest i f

/-- The body of `_assign_new_passengers` (lines 208–231) for one
buffered passenger: score every elevator, and commit the call to the
best one (`if best_elevator:` — when the elevator list is empty no
best exists and nothing is written). -/
def assignOne (P : Params) (elevators : List Elevator) (p : PassengerInfo)
    (led : Ledger) : Ledger :=
  match selectBest P elevators p.origin p.dir with
  | none => led
  | some (b, _) => addCallLedger led b.id p.origin

/-- `_assign_new_passengers` over the whole buffer, in buffer order. -/
def assignNewPassengers (P : Params) (elevators : List Elevator)
    (buffer : List PassengerInfo) (led : Ledger) : Ledger :=
  buffer.foldl (fun l p => assignOne P elevators p l) led

/-- The dispatch block of `LookController.on_event_execute_end`
(src/controllers/look_controller.py, lines 208–233): from the
elevator's demand-processing status, its fullness, the planned stop
set `TARGET_FLOOR` and the planned alighting set `DESTINATION`,
compute the floor commanded next, the surviving `TARGET_FLOOR` set and
the updated direction. Going UP and full: the least destination, and
every planned floor strictly below it is discarded; not full: the
least planned floor. DOWN is the mirror image with greatest floors.
`STOPPED` keeps the previously computed `next_floor` (passed in as
`defaultNext`). `none` models the `ValueError` Python's `min`/`max`
raise on an empty set. -/
def scheduleNext (status : Direction) (isFull : Bool) (target dest : List Int)
    (curr defaultNext : Int) : Option (Int × List Int × Direction) :=
  match status with
  | .up =>
    if isFull then
      match listMin dest with
      | none => none
      | some n =>
        some (n, target.filter (fun f => !decide (f < n)),
          if n ≥ curr then Direction.up else Direction.down)
    else
      match listMin target with
      | none => none
      | some n => some (n, target, if n ≥ curr then Direction.up else Direction.down)
  | .down =>
    if isFull then
      match listMax dest with
      | none => none
      | some n =>
        some (n, target.filter (fun f => !decide (n < f)),
          if n ≤ curr then Direction.down else Direction.up)
    else
      match listMax target with
      | none => none
      | some n => some (n, target, if n ≤ curr then Direction.down else Direction.up)
  | .stopped => some (defaultNext, target, Direction.stopped)

/-- `b` is the first element of `l` (in iteration order) attaining the
least value of `key` — the element Python's strict `<` update loop and
`min(..., key=...)` select. -/
def isFirstMinBy {α β : Type} [LinearOrder β] (key : α → β) : List α → α → Prop
  | [], _ => False
  | x :: xs, b => (b = x ∧ ∀ e ∈ xs, key x ≤ key e) ∨ (key b < key x ∧ isFirstMinBy key xs b)

/-! ### Helper lemmas about the list folds -/

lemma foldl_min_le_init : ∀ (xs : List Int) (a : Int), xs.foldl min a ≤ a := by
  intro xs
  induction xs with
  | nil => intro a; exact le_rfl
  | cons x xs ih =>
    intro a
    calc (x :: xs).foldl min a = xs.foldl min (min a x) := rfl
    _ ≤ min a x := ih (min a x)
    _ ≤ a := min_le_left a x

lemma foldl_min_le_mem : ∀ (xs : List Int) (a y : Int), y ∈ xs → xs.foldl min a ≤ y := by
  intro xs
  induction xs with
  | nil => intro a y hy; cases hy
  | cons x xs ih =>
    intro a y hy
    rcases List.mem_cons.mp hy with h | h
    · subst h
      calc (y :: xs).foldl min a = xs.foldl min (min a y) := rfl
      _ ≤ min a y := foldl_min_le_init xs (min a y)
      _ ≤ y := min_le_right a y
    · exact ih (min a x) y h

lemma foldl_min_mem : ∀ (xs : List Int) (a : Int), xs.foldl min a = a ∨ xs.foldl min a ∈ xs := by
  intro xs
  induction xs with
  | nil => intro a; exact Or.inl rfl
  | cons x xs ih =>
    intro a
    rcases ih (min a x) with h | h
    · have hfold : (x :: xs).foldl min a = min a x := h
      rcases min_cases a x with ⟨hm, _⟩ | ⟨hm, _⟩
      · exact Or.inl (by rw [hfold, hm])
      · exact Or.inr (by rw [hfold, hm]; exact List.mem_cons_self x xs)
    · exact Or.inr (List.mem_cons_of_mem x h)

lemma listMin_mem {l : List Int} {m : Int} (h : listMin l = some m) : m ∈ l := by
  cases l with
  | nil => simp [listMin] at h
  | cons x xs =>
    simp only [listMin, Option.some.injEq] at h
    subst h
    rcases foldl_min_mem xs x with h | h
    · simp [h]
    · exact List.mem_cons_of_mem x h

lemma listMin_le {l : List Int} {m : Int} (h : listMin l = some m) :
    ∀ y ∈ l, m ≤ y := by
  cases l with
  | nil => simp [listMin] at h
  | cons x xs =>
    simp only [listMin, Option.some.injEq] at h
    subst h
    intro y hy
    rcases List.mem_cons.mp hy with h | h
    · subst h; exact foldl_min_le_init xs y
    · exact foldl_min_le_mem xs x y h

lemma listMin_eq_none {l : List Int} (h : listMin l = none) : l = [] := by
  cases l with
  | nil => rfl
  | cons x xs => simp [listMin] at h

lemma foldl_max_init_le : ∀ (xs : List Int) (a : Int), a ≤ xs.foldl max a := by
  intro xs
  induction xs with
  | nil => intro a; exact le_rfl
  | cons x xs ih =>
    intro a
    calc a ≤ max a x := le_max_left a x
    _ ≤ xs.foldl max (max a x) := ih (max a x)
    _ = (x :: xs).foldl max a := rfl

lemma foldl_max_mem_le : ∀ (xs : List Int) (a y : Int), y ∈ xs → y ≤ xs.foldl max a := by
  intro xs
  induction xs with
  | nil => intro a y hy; cases hy
  | cons x xs ih =>
    intro a y hy
    rcases List.mem_cons.mp hy with h | h
    · subst h
      calc y ≤ max a y := le_max_right a y
      _ ≤ xs.foldl max (max a y) := foldl_max_init_le xs (max a y)
      _ = (y :: xs).foldl max a := rfl
    · exact ih (max a x) y h

lemma foldl_max_mem : ∀ (xs : List Int) (a : Int), xs.foldl max a = a ∨ xs.foldl max a ∈ xs := by
  intro xs
  induction xs with
  | nil => intro a; exact Or.inl rfl
  | cons x xs ih =>
    intro a
    rcases ih (max a x) with h | h
    · have hfold : (x :: xs).foldl max a = max a x := h
      rcases max_cases a x with ⟨hm, _⟩ | ⟨hm, _⟩
      · exact Or.inl (by rw [hfold, hm])
      · exact Or.inr (by rw [hfold, hm]; exact List.mem_cons_self x xs)
    · exact Or.inr (List.mem_cons_of_mem x h)

lemma listMax_mem {l : List Int} {m : Int} (h : listMax l = some m) : m ∈ l := by
  cases l with
  | nil => simp [listMax] at h
  | cons x xs =>
    simp only [listMax, Option.some.injEq] at h
    subst h
    rcases foldl_max_mem xs x with h | h
    · simp [h]
    · exact List.mem_cons_of_mem x h

lemma listMax_ge {l : List Int} {m : Int} (h : listMax l = some m) :
    ∀ y ∈ l, y ≤ m := by
  cases l with
  | nil => simp [listMax] at h
  | cons x xs =>
    simp only [listMax, Option.some.injEq] at h
    subst h
    intro y hy
    rcases List.mem_cons.mp hy with h | h
    · subst h; exact foldl_max_init_le xs y
    · exact foldl_max_mem_le xs x y h

lemma listMax_eq_none {l : List Int} (h : listMax l = none) : l = [] := by
  cases l with
  | nil => rfl
  | cons x xs => simp [listMax] at h

/-- The shape shared by Python's `min(..., key=...)` and the manual
`if cost < min_cost` loop: fold keeping the current winner, replacing
it only on a strictly smaller key. -/
def foldBest {α β : Type} [LinearOrder β] (key : α → β) (b0 : α) (l : List α) : α :=
  l.foldl (fun b x => if key x < key b then x else b) b0

lemma isFirstMinBy_mem {α β : Type} [LinearOrder β] {key : α → β} :
    ∀ {l : List α} {b : α}, isFirstMinBy key l b → b ∈ l := by
  intro l
  induction l with
  | nil => intro b h; cases h
  | cons x xs ih =>
    intro b h
    rcases h with ⟨hb, _⟩ | ⟨_, h⟩
    · rw [hb]; exact List.mem_cons_self x xs
    · exact List.mem_cons_of_mem x (ih h)

lemma isFirstMinBy_le {α β : Type} [LinearOrder β] {key : α → β} :
    ∀ {l : List α} {b : α}, isFirstMinBy key l b → ∀ x ∈ l, key b ≤ key x := by
  intro l
  induction l with
  | nil => intro b h; cases h
  | cons y ys ih =>
    intro b h x hx
    rcases List.mem_cons.mp hx with hxy | hxs
    · rcases h with ⟨hb, _⟩ | ⟨hlt, _⟩
      · rw [hb, hxy]
      · rw [hxy]; exact le_of_lt hlt
    · rcases h with ⟨hb, hle⟩ | ⟨_, h⟩
      · rw [hb]; exact hle x hxs
      · exact ih h x hxs

lemma foldBest_isFirstMinBy {α β : Type} [LinearOrder β] (key : α → β) :
    ∀ (l : List α) (b0 : α), isFirstMinBy key (b0 :: l) (foldBest key b0 l) := by
  intro l
  induction l with
  | nil =>
    intro b0
    exact Or.inl ⟨rfl, by intro e he; cases he⟩
  | cons x xs ih =>
    intro b0
    by_cases hlt : key x < key b0
    · have hstep : foldBest key b0 (x :: xs) = foldBest key x xs := by
        simp [foldBest, hlt]
      rw [hstep]
      have hx := ih x
      have hble : key (foldBest key x xs) ≤ key x :=
        isFirstMinBy_le hx x (List.mem_cons_self x xs)
      exact Or.inr ⟨lt_of_le_of_lt hble hlt, hx⟩
    · have hstep : foldBest key b0 (x :: xs) = foldBest key b0 xs := by
        simp [foldBest, hlt]
      rw [hstep]
      have hb0 := ih b0
      have hb0le : key b0 ≤ key x := le_of_not_lt hlt
      rcases hb0 with ⟨hb, hle⟩ | ⟨hltb, hfirst⟩
      · refine Or.inl ⟨hb, ?_⟩
        intro e he
        rcases List.mem_cons.mp he with hex | hexs
        · subst hex; exact hb0le
        · exact hle e hexs
      · exact Or.inr ⟨hltb, Or.inr ⟨lt_of_lt_of_le hltb hb0le, hfirst⟩⟩

lemma minByDist_eq_foldBest (current : Int) (x : Int) (xs : List Int) :
    minByDist current (x :: xs) = some (foldBest (fun f => |f - current|) x xs) := rfl

lemma selectBest_aux (P : Params) (origin : Int) (reqdir : Direction) :
    ∀ (l : List Elevator) (b0 : Elevator),
      l.foldl
        (fun acc e =>
          let c := calcCost P e origin reqdir
          match acc with
          | none => some (e, c)
          | some (_, mc) => if c < mc then some (e, c) else acc)
        (some (b0, calcCost P b0 origin reqdir))
      = some (foldBest (fun e => calcCost P e origin reqdir) b0 l,
          calcCost P (foldBest (fun e => calcCost P e origin reqdir) b0 l) origin reqdir) := by
  intro l
  induction l with
  | nil => intro b0; rfl
  | cons e rest ih =>
    intro b0
    by_cases hlt : calcCost P e origin reqdir < calcCost P b0 origin reqdir
    · have h1 : foldBest (fun e => calcCost P e origin reqdir) b0 (e :: rest)
          = foldBest (fun e => calcCost P e origin reqdir) e rest := by
        simp [foldBest, hlt]
      rw [h1, ← ih e]
      simp [hlt]
    · have h1 : foldBest (fun e => calcCost P e origin reqdir) b0 (e :: rest)
          = foldBest (fun e => calcCost P e origin reqdir) b0 rest := by
        simp [foldBest, hlt]
      rw [h1, ← ih b0]
      simp [hlt]

lemma selectBest_cons (P : Params) (origin : Int) (reqdir : Direction)
    (e : Elevator) (l : List Elevator) :
    selectBest P (e :: l) origin reqdir
      = some (foldBest (fun e => calcCost P e origin reqdir) e l,
          calcCost P (foldBest (fun e => calcCost P e origin reqdir) e l) origin reqdir) :=
  selectBest_aux P origin reqdir l e

/-! ### Helper lemmas about the ledger maps -/

lemma lookupFM_none_notMem : ∀ {m : FloorMap} {f : Int},
    lookupFM m f = none → f ∉ keysFM m := by
  intro m
  induction m with
  | nil => intro f _ h; cases h
  | cons p rest ih =>
    intro f hl hmem
    by_cases hk : p.1 = f
    · simp [lookupFM, hk] at hl
    · rcases List.mem_cons.mp hmem with h | h
      · exact hk (by simpa [keysFM] using h.symm)
      · have : lookupFM rest f = none := by
          cases p with
          | mk k v => simpa [lookupFM, hk] using hl
        exact ih this (by simpa [keysFM] using h)

lemma decOrRemove_absent : ∀ {m : FloorMap} {f : Int},
    lookupFM m f = none → decOrRemove m f = m := by
  intro m
  induction m with
  | nil => intro f _; rfl
  | cons p rest ih =>
    intro f hl
    cases p with
    | mk k v =>
      by_cases hk : k = f
      · simp [lookupFM, hk] at hl
      · have hrest : lookupFM rest f = none := by simpa [lookupFM, hk] using hl
        simp [decOrRemove, hk, ih hrest]

lemma keysFM_incCount : ∀ (m : FloorMap) (f : Int),
    keysFM (incCount m f) = if f ∈ keysFM m then keysFM m else keysFM m ++ [f] := by
  intro m
  induction m with
  | nil => intro f; simp [incCount, keysFM]
  | cons p rest ih =>
    intro f
    cases p with
    | mk k v =>
      by_cases hk : k = f
      · simp [incCount, keysFM, hk]
      · have hne : f ≠ k := fun h => hk h.symm
        have hstep : incCount ((k, v) :: rest) f = (k, v) :: incCount rest f := by
          simp [incCount, hk]
        have hkeys : keysFM ((k, v) :: incCount rest f) = k :: keysFM (incCount rest f) := rfl
        rw [hstep, hkeys, ih f]
        by_cases hmem : f ∈ keysFM rest
        · rw [if_pos hmem,
            if_pos (show f ∈ keysFM ((k, v) :: rest) from List.mem_cons_of_mem _ hmem)]
          rfl
        · have hnot : f ∉ keysFM ((k, v) :: rest) := by
            intro hmem'
            rcases List.mem_cons.mp hmem' with h | h
            · exact hne h
            · exact hmem h
          rw [if_neg hmem, if_neg hnot]
          rfl

lemma vals_incCount : ∀ {m : FloorMap} (f : Int),
    (∀ p ∈ m, 0 < p.2) → ∀ p ∈ incCount m f, 0 < p.2 := by
  intro m
  induction m with
  | nil =>
    intro f _ p hp
    simp [incCount] at hp
    rw [hp]
    norm_num
  | cons q rest ih =>
    intro f hpos p hp
    cases q with
    | mk k v =>
      by_cases hk : k = f
      · simp only [incCount, if_pos hk] at hp
        rcases List.mem_cons.mp hp with h | h
        · have hv : 0 < v := hpos (k, v) (List.mem_cons_self _ _)
          rw [h]; simpa using lt_trans hv (by omega)
        · exact hpos p (List.mem_cons_of_mem _ h)
      · simp only [incCount, if_neg hk] at hp
        rcases List.mem_cons.mp hp with h | h
        · rw [h]; exact hpos (k, v) (List.mem_cons_self _ _)
        · exact ih f (fun q hq => hpos q (List.mem_cons_of_mem _ hq)) p h

lemma FMwf_incCount {m : FloorMap} (f : Int) (h : FMwf m) : FMwf (incCount m f) := by
  obtain ⟨hpos, hnd⟩ := h
  refine ⟨vals_incCount f hpos, ?_⟩
  rw [keysFM_incCount]
  by_cases hmem : f ∈ keysFM m
  · simpa [hmem] using hnd
  · simp only [hmem, if_false]
    simpa [List.nodup_append] using ⟨hnd, hmem⟩

lemma keysFM_decOrRemove_sublist : ∀ (m : FloorMap) (f : Int),
    (keysFM (decOrRemove m f)).Sublist (keysFM m) := by
  intro m
  induction m with
  | nil => intro f; simp [decOrRemove, keysFM]
  | cons p rest ih =>
    intro f
    cases p with
    | mk k v =>
      by_cases hk : k = f
      · by_cases hv : v - 1 ≤ 0
        · simp only [decOrRemove, if_pos hk, if_pos hv]
          exact List.sublist_cons_of_sublist k (List.Sublist.refl _)
        · simp only [decOrRemove, if_pos hk, if_neg hv]
          exact List.Sublist.cons₂ k (List.Sublist.refl _)
      · simp only [decOrRemove, if_neg hk]
        exact List.Sublist.cons₂ k (ih f)

lemma vals_decOrRemove : ∀ {m : FloorMap} (f : Int),
    (∀ p ∈ m, 0 < p.2) → ∀ p ∈ decOrRemove m f, 0 < p.2 := by
  intro m
  induction m with
  | nil => intro f _ p hp; cases hp
  | cons q rest ih =>
    intro f hpos p hp
    cases q with
    | mk k v =>
      by_cases hk : k = f
      · by_cases hv : v - 1 ≤ 0
        · simp only [decOrRemove, if_pos hk, if_pos hv] at hp
          exact hpos p (List.mem_cons_of_mem _ hp)
        · simp only [decOrRemove, if_pos hk, if_neg hv] at hp
          rcases List.mem_cons.mp hp with h | h
          · rw [h]; simpa using by omega
          · exact hpos p (List.mem_cons_of_mem _ h)
      · simp only [decOrRemove, if_neg hk] at hp
        rcases List.mem_cons.mp hp with h | h
        · rw [h]; exact hpos (k, v) (List.mem_cons_self _ _)
        · exact ih f (fun q hq => hpos q (List.mem_cons_of_mem _ hq)) p h

lemma FMwf_decOrRemove {m : FloorMap} (f : Int) (h : FMwf m) : FMwf (decOrRemove m f) :=
  ⟨vals_decOrRemove f h.1, (keysFM_decOrRemove_sublist m f).nodup h.2⟩

/-! ### Claim theorems -/

/-- C1: for a non-empty requested set and direction UP,
`_find_next_target` returns the minimum requested floor strictly above
the current floor when one exists; otherwise the maximum requested
floor strictly below when one exists; otherwise the current floor when
it is requested and no target when it is not. -/
theorem C1_up_scan_minimum_then_reversal (current : Int) (requested : List Int)
    (h : requested ≠ []) :
    ((∃ f ∈ requested, current < f) →
      ∃ m, findNextTarget current .up requested = some m ∧ m ∈ requested ∧ current < m ∧
        ∀ f ∈ requested, current < f → m ≤ f) ∧
    (¬ (∃ f ∈ requested, current < f) → (∃ f ∈ requested, f < current) →
      ∃ m, findNextTarget current .up requested = some m ∧ m ∈ requested ∧ m < current ∧
        ∀ f ∈ requested, f < current → f ≤ m) ∧
    (¬ (∃ f ∈ requested, current < f) → ¬ (∃ f ∈ requested, f < current) →
      findNextTarget current .up requested =
        if current ∈ requested then some current else none) := by
  have hne : requested.isEmpty = false := by
    cases requested with
    | nil => exact absurd rfl h
    | cons a l => rfl
  refine ⟨?_, ?_, ?_⟩
  · intro hex
    obtain ⟨f0, hf0mem, hf0⟩ := hex
    have hfA : f0 ∈ requested.filter (fun f => current < f) :=
      List.mem_filter.mpr ⟨hf0mem, by simpa using hf0⟩
    obtain ⟨m, hm⟩ : ∃ m, listMin (requested.filter (fun f => current < f)) = some m := by
      cases habove : requested.filter (fun f => current < f) with
      | nil => rw [habove] at hfA; cases hfA
      | cons a as => exact ⟨_, rfl⟩
    have hmmem := listMin_mem hm
    have hmfilter := List.mem_filter.mp hmmem
    refine ⟨m, ?_, hmfilter.1, by simpa using hmfilter.2, ?_⟩
    · simp only [findNextTarget, hne, Bool.false_eq_true, if_false, hm]
    · intro f hf hcf
      exact listMin_le hm f (List.mem_filter.mpr ⟨hf, by simpa using hcf⟩)
  · intro hnoabove hex
    have habove : requested.filter (fun f => current < f) = [] := by
      cases habove : requested.filter (fun f => current < f) with
      | nil => rfl
      | cons a as =>
        have ha : a ∈ requested.filter (fun f => current < f) := by
          rw [habove]; exact List.mem_cons_self a as
        have := List.mem_filter.mp ha
        exact absurd ⟨a, this.1, by simpa using this.2⟩ hnoabove
    obtain ⟨f0, hf0mem, hf0⟩ := hex
    have hfB : f0 ∈ requested.filter (fun f => f < current) :=
      List.mem_filter.mpr ⟨hf0mem, by simpa using hf0⟩
    obtain ⟨m, hm⟩ : ∃ m, listMax (requested.filter (fun f => f < current)) = some m := by
      cases hbelow : requested.filter (fun f => f < current) with
      | nil => rw [hbelow] at hfB; cases hfB
      | cons a as => exact ⟨_, rfl⟩
    have hmmem := listMax_mem hm
    have hmfilter := List.mem_filter.mp hmmem
    refine ⟨m, ?_, hmfilter.1, by simpa using hmfilter.2, ?_⟩
    · simp only [findNextTarget, hne, Bool.false_eq_true, if_false, habove, listMin, hm]
    · intro f hf hcf
      exact listMax_ge hm f (List.mem_filter.mpr ⟨hf, by simpa using hcf⟩)
  · intro hnoabove hnobelow
    have habove : requested.filter (fun f => current < f) = [] := by
      cases habove : requested.filter (fun f => current < f) with
      | nil => rfl
      | cons a as =>
        have ha : a ∈ requested.filter (fun f => current < f) := by
          rw [habove]; exact List.mem_cons_self a as
        have := List.mem_filter.mp ha
        exact absurd ⟨a, this.1, by simpa using this.2⟩ hnoabove
    have hbelow : requested.filter (fun f => f < current) = [] := by
      cases hbelow : requested.filter (fun f => f < current) with
      | nil => rfl
      | cons a as =>
        have ha : a ∈ requested.filter (fun f => f < current) := by
          rw [hbelow]; exact List.mem_cons_self a as
        have := List.mem_filter.mp ha
        exact absurd ⟨a, this.1, by simpa using this.2⟩ hnobelow
    simp only [findNextTarget, hne, Bool.false_eq_true, if_false, habove, hbelow, listMin,
      listMax]

/-- C1 witness: current floor 3, requested {5, 1, 7}: the scan going UP
returns 5, the least requested floor above 3. -/
theorem C1_up_scan_minimum_then_reversal_witness :
    ∃ m, findNextTarget 3 .up [5, 1, 7] = some m ∧ m ∈ [(5 : Int), 1, 7] ∧ (3 : Int) < m ∧
      ∀ f ∈ [(5 : Int), 1, 7], 3 < f → m ≤ f :=
  (C1_up_scan_minimum_then_reversal 3 [5, 1, 7] (by decide)).1
    ⟨5, by decide, by decide⟩

/-- C10: whenever `_find_next_target` returns a target floor, that
floor belongs to the requested set it was given — the LOOK selector
never commands a floor nobody requested. -/
theorem C10_target_is_requested (current : Int) (direction : Direction)
    (requested : List Int) (t : Int)
    (h : findNextTarget current direction requested = some t) : t ∈ requested := by
  by_cases hne : requested.isEmpty
  · simp [findNextTarget, hne] at h
  · have hne' : requested.isEmpty = false := by simpa using hne
    cases direction with
    | up =>
      simp only [findNextTarget, hne', Bool.false_eq_true, if_false] at h
      cases hA : listMin (requested.filter (fun f => current < f)) with
      | some m =>
        rw [hA] at h
        cases h
        exact (List.mem_filter.mp (listMin_mem hA)).1
      | none =>
        rw [hA] at h
        cases hB : listMax (requested.filter (fun f => f < current)) with
        | some m =>
          rw [hB] at h
          cases h
          exact (List.mem_filter.mp (listMax_mem hB)).1
        | none =>
          rw [hB] at h
          by_cases hc : current ∈ requested
          · rw [if_pos hc] at h; cases h; exact hc
          · rw [if_neg hc] at h; cases h
    | down =>
      simp only [findNextTarget, hne', Bool.false_eq_true, if_false] at h
      cases hB : listMax (requested.filter (fun f => f < current)) with
      | some m =>
        rw [hB] at h
        cases h
        exact (List.mem_filter.mp (listMax_mem hB)).1
      | none =>
        rw [hB] at h
        cases hA : listMin (requested.filter (fun f => current < f)) with
        | some m =>
          rw [hA] at h
          cases h
          exact (List.mem_filter.mp (listMin_mem hA)).1
        | none =>
          rw [hA] at h
          by_cases hc : current ∈ requested
          · rw [if_pos hc] at h; cases h; exact hc
          · rw [if_neg hc] at h; cases h
    | stopped =>
      simp only [findNextTarget, hne', Bool.false_eq_true, if_false] at h
      cases requested with
      | nil => simp [minByDist] at h
      | cons x xs =>
        rw [minByDist_eq_foldBest] at h
        cases h
        exact isFirstMinBy_mem (foldBest_isFirstMinBy (fun f => |f - current|) xs x)

/-- C10 witness: at floor 3 going UP with requested {5}, the selector
returns 5, and 5 is indeed a requested floor. -/
theorem C10_target_is_requested_witness : (5 : Int) ∈ [(5 : Int)] :=
  C10_target_is_requested 3 .up [5] 5 (by decide)

/-- C4 (amended): for a non-empty requested set and direction STOPPED,
`_find_next_target` returns a requested floor minimizing the absolute
distance from the current floor; among equidistant floors the one
appearing FIRST in the set's iteration order wins (Python
`min(..., key=...)` keeps the earlier element on ties), which is not
always the smaller floor number. -/
theorem C4_stopped_nearest_first_in_order (current : Int) (requested : List Int)
    (h : requested ≠ []) :
    ∃ t, findNextTarget current .stopped requested = some t ∧ t ∈ requested ∧
      (∀ f ∈ requested, |t - current| ≤ |f - current|) ∧
      isFirstMinBy (fun f => |f - current|) requested t := by
  cases requested with
  | nil => exact absurd rfl h
  | cons x xs =>
    have hfb := foldBest_isFirstMinBy (fun f => |f - current|) xs x
    exact ⟨foldBest (fun f => |f - current|) x xs, rfl, isFirstMinBy_mem hfb,
      fun f hf => isFirstMinBy_le hfb f hf, hfb⟩

/-- C4 witness: stopped at floor 0 with requested {5}: the selector
returns 5, the unique distance-minimizing floor. -/
theorem C4_stopped_nearest_first_in_order_witness :
    ∃ t, findNextTarget 0 .stopped [5] = some t ∧ t ∈ [(5 : Int)] ∧
      (∀ f ∈ [(5 : Int)], |t - 0| ≤ |f - 0|) ∧
      isFirstMinBy (fun f => |f - (0 : Int)|) [5] t :=
  C4_stopped_nearest_first_in_order 0 [5] (by decide)

/-- C4 counterexample: the claim's tie-break ("the smaller floor number
is returned") fails. At floor 5 with requested floors 2 and 8 — both
at distance 3 — the code returns whichever the set yields first. A
CPython set of small ints stores n in hash-table slot `n mod 8` (the
initial table has 8 slots) and iterates slots in order, so `{2, 8}`
iterates as 8, 2, and `min` with the distance key returns 8, not the
smaller floor 2. -/
theorem C4_stopped_tiebreak_counterexample :
    |(8 : Int) - 5| = |(2 : Int) - 5| ∧ (2 : Int) < 8 ∧
    (2 : Int) ∈ [(8 : Int), 2] ∧
    findNextTarget 5 .stopped [8, 2] = some 8 := by decide

/-- C5 (amended): when a new target is committed
(`on_event_execute_end` lines 101–105, `on_elevator_idle` lines
135–139), the stored direction becomes UP exactly when the target is
strictly above the current floor and DOWN otherwise — including the
case where the target equals the current floor, which yields DOWN, not
"unchanged" and not STOPPED. -/
theorem C5_commit_direction_up_else_down (current : Int) (direction : Direction)
    (requested : List Int) (t : Int) (d : Direction)
    (h : commitTarget current direction requested = some (t, d)) :
    (current < t → d = .up) ∧ (t ≤ current → d = .down) := by
  unfold commitTarget at h
  cases hft : findNextTarget current direction requested with
  | none => rw [hft] at h; cases h
  | some t0 =>
    rw [hft] at h
    simp only [Option.some.injEq, Prod.mk.injEq] at h
    obtain ⟨ht, hd⟩ := h
    constructor
    · intro hlt
      rw [← hd, if_pos (ht ▸ hlt)]
    · intro hle
      rw [← hd, if_neg (not_lt.mpr (ht ▸ hle))]

/-- C5 witness: at floor 3 going UP with only floor 3 requested, the
commit step stores target 3 and direction DOWN, matching the amended
rule's "otherwise" branch. -/
theorem C5_commit_direction_up_else_down_witness :
    ((3 : Int) < 3 → Direction.down = Direction.up) ∧
    ((3 : Int) ≤ 3 → Direction.down = Direction.down) :=
  C5_commit_direction_up_else_down 3 .up [3] 3 Direction.down (by decide)

/-- C5 counterexample: at floor 3 going UP with requested {3}, the
committed target equals the current floor, and the stored direction
becomes DOWN — neither left unchanged (UP) nor set to STOPPED as the
claim states. -/
theorem C5_equal_target_direction_counterexample :
    commitTarget 3 .up [3] = some (3, Direction.down) ∧
    Direction.down ≠ Direction.up ∧ Direction.down ≠ Direction.stopped := by decide

/-- C2 (amended): in the primary controller
(`LookElevatorController._calculate_assignment_cost`) the assignment
cost equals the specified formula
`α·|floor − origin| + β·onboardCount + γ·penalty` with the penalty
0 / 0 / K / M exactly as claimed, for every request direction UP or
DOWN. (The draft `LookController` deviates — see the
counterexample.) -/
theorem C2_primary_cost_matches_spec_formula (P : Params) (e : Elevator)
    (origin : Int) (reqdir : Direction) (h : reqdir ≠ .stopped) :
    calcCost P e origin reqdir = specCost P e origin reqdir := by
  have hpen : directionPenalty P e origin reqdir = specDirectionPenalty P e origin reqdir := by
    unfold directionPenalty specDirectionPenalty
    cases hd : e.dir <;> cases hr : reqdir <;> simp_all
  unfold calcCost specCost
  rw [hpen]

/-- C2 witness: floor 2 going UP, 3 onboard, origin 7 going UP: both
the source computation and the spec formula give
`α·5 + β·3 + γ·0`, evaluated here with the default weights as 13/2·…;
concretely cost `5 + 3/2 = 13/2`. -/
theorem C2_primary_cost_matches_spec_formula_witness :
    calcCost defaultParams ⟨0, 2, 3, .up⟩ 7 .up
      = specCost defaultParams ⟨0, 2, 3, .up⟩ 7 .up :=
  C2_primary_cost_matches_spec_formula defaultParams ⟨0, 2, 3, .up⟩ 7 .up (by decide)

/-- C2 counterexample: the draft
`LookController._calculate_assignment_cost` does not follow the
claimed formula. Take its weights `alpha = 1`, `beta = 2`, an elevator
at floor 0 moving UP with empty queues and no passengers, and a DOWN
request at origin 0: the source returns `1·0 + 2·0 = 0`, while the
claimed formula (with `gamma = 2`, `M = 100` from the same class)
demands `0 + 0 + 2·100 = 200` for the opposite-direction penalty. -/
theorem C2_draft_cost_counterexample :
    lookCalcCost 1 2 0 0 0 0 .down
      ≠ specCost ⟨1, 2, 2, 10, 100⟩ ⟨0, 0, 0, .up⟩ 0 .down := by
  simp [lookCalcCost, specCost, specDirectionPenalty]

/-- C3 (amended): with an empty elevator list `_assign_new_passengers`
is a no-op on the call ledgers, whatever the buffer holds; but the
buffered requests do NOT survive to the next cycle —
`on_event_execute_start` unconditionally resets the buffer to `[]`, so
unassigned requests are discarded, not retried. -/
theorem C3_empty_elevators_noop_but_buffer_cleared (P : Params)
    (buffer : List PassengerInfo) (led : Ledger) :
    assignNewPassengers P [] buffer led = led ∧ resetNewPassengers buffer = [] := by
  constructor
  · induction buffer generalizing led with
    | nil => rfl
    | cons p ps ih => exact ih led
  · rfl

/-- C3 counterexample: one buffered request (passenger 0, origin 5,
UP) and no elevators: the assignment pass leaves the ledger unchanged,
but the next cycle's `on_event_execute_start` resets the buffer, so
the request is no longer in the buffer to be retried — it has been
silently dropped, contradicting the claim's retry guarantee. -/
theorem C3_request_dropped_counterexample :
    assignNewPassengers defaultParams [] [⟨0, 5, .up⟩] [(0, [])] = [(0, [])] ∧
    resetNewPassengers [⟨0, 5, .up⟩] = [] ∧
    (⟨0, 5, .up⟩ : PassengerInfo) ∉ resetNewPassengers [⟨0, 5, .up⟩] := by
  refine ⟨rfl, rfl, ?_⟩
  intro hmem
  cases hmem

/-- C7: ledger well-formedness is preserved by every ledger operation
— adding a call (`_assign_new_passengers`), boarding (`incCount` on
destinations / `decOrRemove` on calls) and alighting (`decOrRemove` on
destinations) keep every stored count strictly positive (zero-count
floors are deleted, never kept, and no count ever goes negative) — and
`_get_requested_floors` is exactly the union of the two key sets. -/
theorem C7_ledger_wellformed_and_union (calls dests : FloorMap) (f g x : Int)
    (hc : FMwf calls) (hd : FMwf dests) :
    FMwf (incCount calls f) ∧ FMwf (decOrRemove calls f) ∧
    FMwf (incCount dests g) ∧ FMwf (decOrRemove dests g) ∧
    (x ∈ requestedFloors calls dests ↔ x ∈ keysFM calls ∨ x ∈ keysFM dests) :=
  ⟨FMwf_incCount f hc, FMwf_decOrRemove f hc, FMwf_incCount g hd, FMwf_decOrRemove g hd,
    List.mem_append⟩

/-- C7 witness: calls {1 ↦ 2}, destinations {3 ↦ 1}: every operation
preserves well-formedness, and floor 5 is in the requested union iff
it is a call or destination key. -/
theorem C7_ledger_wellformed_and_union_witness :
    FMwf (incCount [(1, 2)] 1) ∧ FMwf (decOrRemove [(1, 2)] 1) ∧
    FMwf (incCount [(3, 1)] 3) ∧ FMwf (decOrRemove [(3, 1)] 3) ∧
    ((5 : Int) ∈ requestedFloors [(1, 2)] [(3, 1)] ↔
      (5 : Int) ∈ keysFM [(1, 2)] ∨ (5 : Int) ∈ keysFM [(3, 1)]) :=
  C7_ledger_wellformed_and_union [(1, 2)] [(3, 1)] 1 3 5 (by decide) (by decide)

/-- C8: for a non-empty elevator list, `_assign_new_passengers`
commits the buffered request to an elevator of (weakly) least cost,
and that elevator is the FIRST one in iteration order attaining the
minimum (the `cost < min_cost` strict update keeps the earlier
elevator on ties); the commit adds the call to exactly that elevator's
ledger entry. -/
theorem C8_greedy_picks_first_min_cost (P : Params) (elevators : List Elevator)
    (p : PassengerInfo) (led : Ledger) (h : elevators ≠ []) :
    ∃ b : Elevator,
      selectBest P elevators p.origin p.dir = some (b, calcCost P b p.origin p.dir) ∧
      isFirstMinBy (fun e => calcCost P e p.origin p.dir) elevators b ∧
      (∀ e ∈ elevators, calcCost P b p.origin p.dir ≤ calcCost P e p.origin p.dir) ∧
      assignOne P elevators p led = addCallLedger led b.id p.origin := by
  cases elevators with
  | nil => exact absurd rfl h
  | cons e l =>
    have hsel := selectBest_cons P p.origin p.dir e l
    have hfb := foldBest_isFirstMinBy (fun x => calcCost P x p.origin p.dir) l e
    refine ⟨foldBest (fun x => calcCost P x p.origin p.dir) e l, hsel, hfb,
      fun x hx => isFirstMinBy_le hfb x hx, ?_⟩
    unfold assignOne
    rw [hsel]

/-- C8 witness (spec Scenario D): two identical stopped elevators at
floor 0 and a request at floor 4 going UP tie at cost 4; the selection
returns the first elevator (id 0) in iteration order. -/
theorem C8_greedy_picks_first_min_cost_witness :
    (∃ b : Elevator,
      selectBest defaultParams [⟨0, 0, 0, .stopped⟩, ⟨1, 0, 0, .stopped⟩] 4 .up
        = some (b, calcCost defaultParams b 4 .up) ∧
      isFirstMinBy (fun e => calcCost defaultParams e 4 .up)
        [⟨0, 0, 0, .stopped⟩, ⟨1, 0, 0, .stopped⟩] b ∧
      (∀ e ∈ [(⟨0, 0, 0, .stopped⟩ : Elevator), ⟨1, 0, 0, .stopped⟩],
        calcCost defaultParams b 4 .up ≤ calcCost defaultParams e 4 .up) ∧
      assignOne defaultParams [⟨0, 0, 0, .stopped⟩, ⟨1, 0, 0, .stopped⟩] ⟨9, 4, .up⟩ [(0, []), (1, [])]
        = addCallLedger [(0, []), (1, [])] b.id 4) ∧
    selectBest defaultParams [⟨0, 0, 0, .stopped⟩, ⟨1, 0, 0, .stopped⟩] 4 .up
      = some (⟨0, 0, 0, .stopped⟩, 4) := by
  constructor
  · exact C8_greedy_picks_first_min_cost defaultParams
      [⟨0, 0, 0, .stopped⟩, ⟨1, 0, 0, .stopped⟩] ⟨9, 4, .up⟩ [(0, []), (1, [])] (by decide)
  · norm_num [selectBest, calcCost, directionPenalty, defaultParams]

/-- C9: removing a call floor (`on_passenger_board` lines 157–160) or
a destination floor (`on_passenger_alight` lines 175–178) that is not
present in the corresponding map is a no-op: both sites guard the
decrement with a membership test, so nothing is raised and the map —
hence the whole ledger — is unchanged. -/
theorem C9_double_removal_is_noop (m : FloorMap) (f : Int)
    (h : lookupFM m f = none) : decOrRemove m f = m :=
  decOrRemove_absent h

/-- C9 witness: removing floor 5 from the map {2 ↦ 3}, where it is
absent, returns the map unchanged. -/
theorem C9_double_removal_is_noop_witness :
    decOrRemove [(2, 3)] 5 = [(2, 3)] :=
  C9_double_removal_is_noop [(2, 3)] 5 (by decide)

/-- C6: in the draft `LookController` dispatch block (lines 209–228),
a full elevator's next floor is taken from the `DESTINATION` set only
(its minimum when processing UP demand, its maximum when processing
DOWN), and every planned floor on the near side of that nearest
destination — strictly below it going UP, strictly above it going DOWN
— is discarded from the `TARGET_FLOOR` plan, so such call floors are
ignored until a destination is served. -/
theorem C6_full_car_restricts_to_destinations (target dest : List Int)
    (curr defaultNext : Int) (hdest : dest ≠ []) :
    (∃ n T d, scheduleNext .up true target dest curr defaultNext = some (n, T, d) ∧
      n ∈ dest ∧ (∀ m ∈ dest, n ≤ m) ∧ (∀ f ∈ target, f < n → f ∉ T) ∧
      (∀ f ∈ T, f ∈ target)) ∧
    (∃ n T d, scheduleNext .down true target dest curr defaultNext = some (n, T, d) ∧
      n ∈ dest ∧ (∀ m ∈ dest, m ≤ n) ∧ (∀ f ∈ target, n < f → f ∉ T) ∧
      (∀ f ∈ T, f ∈ target)) := by
  constructor
  · obtain ⟨n, hn⟩ : ∃ n, listMin dest = some n := by
      cases hd : dest with
      | nil => exact absurd hd hdest
      | cons a as => exact ⟨_, rfl⟩
    refine ⟨n, target.filter (fun f => !decide (f < n)),
      (if n ≥ curr then Direction.up else Direction.down), ?_, listMin_mem hn,
      listMin_le hn, ?_, ?_⟩
    · simp only [scheduleNext, if_pos, hn]
    · intro f _ hlt hmemT
      have := List.mem_filter.mp hmemT
      simp [hlt] at this
    · intro f hf
      exact (List.mem_filter.mp hf).1
  · obtain ⟨n, hn⟩ : ∃ n, listMax dest = some n := by
      cases hd : dest with
      | nil => exact absurd hd hdest
      | cons a as => exact ⟨_, rfl⟩
    refine ⟨n, target.filter (fun f => !decide (n < f)),
      (if n ≤ curr then Direction.down else Direction.up), ?_, listMax_mem hn,
      listMax_ge hn, ?_, ?_⟩
    · simp only [scheduleNext, if_pos, hn]
    · intro f _ hlt hmemT
      have := List.mem_filter.mp hmemT
      simp [hlt] at this
    · intro f hf
      exact (List.mem_filter.mp hf).1

/-- C6 witness (spec Scenario E): full elevator processing UP demand,
destinations {6}, planned floors {3, 6}: the commanded floor is 6 (a
destination) and call floor 3 is dropped from the plan — the selection
ignores floor 3 until a destination is served. -/
theorem C6_full_car_restricts_to_destinations_witness :
    (∃ n T d, scheduleNext .up true [3, 6] [6] 0 0 = some (n, T, d) ∧
      n ∈ [(6 : Int)] ∧ (∀ m ∈ [(6 : Int)], n ≤ m) ∧
      (∀ f ∈ [(3 : Int), 6], f < n → f ∉ T) ∧ (∀ f ∈ T, f ∈ [(3 : Int), 6])) ∧
    scheduleNext .up true [3, 6] [6] 0 0 = some (6, [6], .up) := by
  constructor
  · exact (C6_full_car_restricts_to_destinations [3, 6] [6] 0 0 (by decide)).1
  · decide

end LookSpec
